import Mathlib

/-!
Shallow embedding of `src/word_index.py`: an in-memory inverted-index
engine (`Database.index` / `Database.match`).  Strings are modelled as
lists of Unicode codepoints (`Nat`), Python `dict`s as functions into
`Option`, Python `set`s as `Finset`s, and operations that can raise
(`key[-1]` on an empty string, `self.__docs[id_]` on a missing key)
return `Option`.  The external morphology provider `get_word_forms` is a
parameter of the engine state: `morph w` is the union of all variant
sets that `get_word_forms(w).values()` yields for the word `w`.
-/

/-- A Python string: a list of Unicode codepoints (each a `Nat`). -/
abbrev Str := List Nat

/-- A document identifier: `id_ : int = None`, so either an integer or
`none` (Python `None`). -/
abbrev DocId := Option Int

/-- A document: a flat field-name to field-text mapping
(`Dict[str, str]`), modelled as an association list. -/
abbrev Doc := List (Str × Str)

/-- Convert a Lean string literal to its codepoint list (for concrete
examples only; the engine itself works on `Str`). -/
def ofStr (s : String) : Str := s.data.map Char.toNat

/-- Python `str.split()` whitespace: space, tab, newline, carriage
return, vertical tab, form feed. -/
def isWs (c : Nat) : Bool := c = 32 || c = 9 || c = 10 || c = 13 || c = 11 || c = 12

/-- Python `str.lower()` on one codepoint (ASCII letters; other
codepoints are left unchanged). -/
def lowerChar (c : Nat) : Nat := if 65 ≤ c ∧ c ≤ 90 then c + 32 else c

/-- Python `str.lower()`. -/
def lowerStr (s : Str) : Str := s.map lowerChar

/-- One splitting pass for `splitWs`, structurally recursive on a fuel
bound so that it evaluates by kernel reduction; any fuel of at least
`s.length` gives the same result (`splitWsF_adequate`). -/
def splitWsF : Nat → Str → List Str
  | 0, _ => []
  | fuel + 1, s =>
    match s.dropWhile isWs with
    | [] => []
    | c :: cs =>
      (c :: cs.takeWhile (fun x => !isWs x)) ::
        splitWsF fuel (cs.dropWhile (fun x => !isWs x))

/-- Python `str.split()` with no argument: split on runs of whitespace,
never producing empty tokens. -/
def splitWs (s : Str) : List Str := splitWsF s.length s

/-- `Database.__strip_key`: strip one trailing `,`, `!` or `.`.
`key[-1]` raises `IndexError` on the empty string, hence `Option`. -/
def strip_key (key : Str) : Option Str :=
  match key.reverse with
  | [] => none
  | c :: rest => some (if c = 44 ∨ c = 33 ∨ c = 46 then rest.reverse else key)

/-- The normalized words contributed by one field value: every
whitespace-delimited token, lower-cased then stripped. -/
def valueWords (v : Str) : Option (List Str) :=
  (splitWs v).mapM (fun w => strip_key (lowerStr w))

/-- `Database.__lower_strip_words`: the set of normalized words of all
field values of a document (field names are ignored, only `doc.values()`
is read). -/
def lower_strip_words (doc : Doc) : Option (Finset Str) :=
  ((doc.map Prod.snd).mapM valueWords).map (fun l => l.flatten.toFinset)

/-- Modelled from the spec: "lower-case every field value's
whitespace-delimited token, strip one trailing punctuation character if
it is one of `,`, `!`, `.`" — the spec-side description of one token's
normalization, to be compared with the code's `strip_key ∘ lowerStr`. -/
def stripOneTrailing (w : Str) : Str :=
  if w.getLast? = some 44 ∨ w.getLast? = some 33 ∨ w.getLast? = some 46 then
    w.dropLast
  else w

/-- Modelled from the spec: the literal normalized word set of a
document — every whitespace-delimited token of every field value,
lower-cased and stripped of one trailing punctuation character; field
names contribute nothing. -/
def specNormWords (doc : Doc) : Finset Str :=
  ((doc.map Prod.snd).flatMap
    (fun v => (splitWs v).map (fun t => stripOneTrailing (lowerStr t)))).toFinset

/-- The engine state: `Database.__init__` plus the imported morphology
provider.  `morph w` stands for the union of all variant collections in
`get_word_forms(w).values()`. -/
structure Database where
  morph : Str → List Str
  docs : DocId → Option Doc
  /-- `self.__index`, the inverted index (named `inv_index` here because
  the Lean structure also has the method `index`). -/
  inv_index : Str → Option (Finset DocId)
  doc_ids : Finset DocId

/-- A fresh `Database()` using the morphology provider `m`. -/
def Database.empty (m : Str → List Str) : Database :=
  { morph := m, docs := fun _ => none, inv_index := fun _ => none, doc_ids := ∅ }

/-- Net effect on the inverted index of the removal loop of
`Database.__reindex_if_doc_in_db`: for each old literal word present as
a key and holding `id`, remove `id` from its posting list, deleting the
key if the posting list becomes empty (the `empty_buckets` pass); every
key outside `ws` is untouched.  Each loop iteration touches only the
posting list of its own word, so the loop's effect is pointwise. -/
def removeFromIndex (idx : Str → Option (Finset DocId)) (ws : Finset Str)
    (id : DocId) : Str → Option (Finset DocId) := fun w =>
  if w ∈ ws then
    match idx w with
    | none => none
    | some s =>
      if id ∈ s then (if s.erase id = ∅ then none else some (s.erase id))
      else some s
  else idx w

/-- Net effect of the insertion loop of `Database.index`
(`__init_index_entry` then `add`): every term in `ws` gets a posting
list (empty if absent) with `id` added; other keys are untouched. -/
def addToIndex (idx : Str → Option (Finset DocId)) (ws : Finset Str)
    (id : DocId) : Str → Option (Finset DocId) := fun w =>
  if w ∈ ws then some ((idx w).getD ∅ ∪ {id}) else idx w

/-- The combined term set built by `Database.index`: each literal word
together with all its morphological variants. -/
def expandSet (m : Str → List Str) (lits : Finset Str) : Finset Str :=
  lits.biUnion (fun w => insert w (m w).toFinset)

/-- `Database.__reindex_if_doc_in_db`: if `id` is already known, remove
`id` from the posting lists of the old document's literal normalized
words, deleting emptied keys.  `self.__docs[id_]` raises `KeyError`
when `id` is in `__doc_ids` but not in `__docs`, hence `Option`. -/
def Database.reindex_if_doc_in_db (db : Database) (id : DocId) :
    Option Database :=
  if id ∈ db.doc_ids then
    match db.docs id with
    | none => none
    | some doc =>
      match lower_strip_words doc with
      | none => none
      | some ws =>
        some { db with inv_index := removeFromIndex db.inv_index ws id }
  else some db

/-- `Database.index`: re-index if the id is known, store the document,
then add `id` to the posting list of every literal normalized word and
every morphological variant. -/
def Database.index (db : Database) (doc : Doc) (id : DocId) :
    Option Database :=
  match db.reindex_if_doc_in_db id with
  | none => none
  | some db1 =>
    match lower_strip_words doc with
    | none => none
    | some lits =>
      some { morph := db1.morph,
             docs := fun x => if x = id then some doc else db1.docs x,
             doc_ids := insert id db1.doc_ids,
             inv_index := addToIndex db1.inv_index (expandSet db1.morph lits) id }

/-- The set of identifiers accumulated by `Database.match`'s loop:
each whitespace token of `text` is lower-cased (not stripped, not
expanded) and looked up directly as an index key. -/
def Database.matchSet (db : Database) (text : Str) : Finset DocId :=
  (splitWs text).foldl
    (fun acc tok =>
      match db.inv_index (lowerStr tok) with
      | some s => acc ∪ s
      | none => acc) ∅

/-- `Database.match`: Python returns `list(match_ids)`, an
arbitrary-order, duplicate-free enumeration of the accumulated set; the
spec declares the order meaningless, so the set itself is the faithful
observable. -/
def Database.match (db : Database) (text : Str) : Finset DocId :=
  db.matchSet text

/-- The module-level `index(db, doc, id_=None)` wrapper: calling it
without an identifier uses the default `None`. -/
def topIndex (db : Database) (doc : Doc) (id : DocId := none) :
    Option Database :=
  db.index doc id

/-- The state produced by a successful `Database.index db doc i` call,
parametrised by the inverted index `mid` left by the removal step:
document stored, id recorded, and `id` added to the posting list of
every literal word and every variant of the new document. -/
def afterIndex (db : Database) (doc : Doc) (i : DocId)
    (mid : Str → Option (Finset DocId)) : Database :=
  { morph := db.morph,
    docs := fun x => if x = i then some doc else db.docs x,
    doc_ids := insert i db.doc_ids,
    inv_index := addToIndex mid (expandSet db.morph (specNormWords doc)) i }

/-- Membership of an identifier in an optional posting list: the key is
present and its posting list holds the identifier. -/
def inPosting (o : Option (Finset DocId)) (j : DocId) : Prop :=
  match o with
  | some s => j ∈ s
  | none => False

instance (o : Option (Finset DocId)) (j : DocId) : Decidable (inPosting o j) :=
  match o with
  | some s => inferInstanceAs (Decidable (j ∈ s))
  | none => inferInstanceAs (Decidable False)

/-- The freshness invariant of the spec's §3: every (term, id) pair in
the inverted index is backed by the currently stored document of `id`,
whose normalized-and-expanded word set contains the term. -/
def Freshness (db : Database) : Prop :=
  ∀ w j, inPosting (db.inv_index w) j →
    ∃ d, db.docs j = some d ∧ w ∈ expandSet db.morph (specNormWords d)

/-- No key of the inverted index holds an empty posting list. -/
def NoEmptyPostings (db : Database) : Prop :=
  ∀ w, db.inv_index w ≠ some ∅

/-- `self.__doc_ids` tracks exactly the keys of `self.__docs` (both are
only ever extended, together, by `Database.index`). -/
def SyncIds (db : Database) : Prop :=
  ∀ i, i ∈ db.doc_ids ↔ (db.docs i).isSome

/-- A morphology provider that never returns a variant other than the
word itself. -/
def IdMorph (m : Str → List Str) : Prop :=
  ∀ w, ∀ v ∈ m w, v = w

/-- The states the engine can reach from a fresh `Database()` by
`index` calls (`match` does not mutate the state). -/
inductive Reachable : Database → Prop
  | init (m : Str → List Str) : Reachable (Database.empty m)
  | step {db : Database} {doc : Doc} {i : DocId} {db' : Database} :
      Reachable db → db.index doc i = some db' → Reachable db'

/-- A deterministic stub morphology provider with no variants, for
concrete examples (the spec directs testing with a stub provider). -/
def mNone : Str → List Str := fun _ => []

/-- A deterministic stub morphology provider knowing one variant:
`proving ↦ {prove}`, for concrete examples. -/
def mProve : Str → List Str :=
  fun w => if w = ofStr "proving" then [ofStr "prove"] else []

/-- Run `Database.index` on inputs known to succeed, for concrete
examples (`getD` supplies an irrelevant fallback). -/
def runIndex (db : Database) (doc : Doc) (i : DocId) : Database :=
  (db.index doc i).getD db

theorem isWs_false_of_ge {c : Nat} (h : 65 ≤ c) : isWs c = false := by
  have h32 : (c = 32) = False := by simp; omega
  have h9 : (c = 9) = False := by simp; omega
  have h10 : (c = 10) = False := by simp; omega
  have h13 : (c = 13) = False := by simp; omega
  have h11 : (c = 11) = False := by simp; omega
  have h12 : (c = 12) = False := by simp; omega
  simp [isWs, h32, h9, h10, h13, h11, h12]

theorem lowerChar_idem (c : Nat) : lowerChar (lowerChar c) = lowerChar c := by
  by_cases h : 65 ≤ c ∧ c ≤ 90
  · simp only [lowerChar, if_pos h]
    have h' : ¬(65 ≤ c + 32 ∧ c + 32 ≤ 90) := by omega
    rw [if_neg h']
  · simp only [lowerChar, if_neg h]

theorem isWs_lowerChar (c : Nat) : isWs (lowerChar c) = isWs c := by
  by_cases h : 65 ≤ c ∧ c ≤ 90
  · simp only [lowerChar, if_pos h]
    have h1 : isWs (c + 32) = false := isWs_false_of_ge (by omega)
    have h2 : isWs c = false := isWs_false_of_ge h.1
    rw [h1, h2]
  · simp only [lowerChar, if_neg h]

theorem lowerStr_idem (s : Str) : lowerStr (lowerStr s) = lowerStr s := by
  simp only [lowerStr, List.map_map]
  exact List.map_congr_left (fun c _ => lowerChar_idem c)

theorem lowerStr_ne_nil {s : Str} (h : s ≠ []) : lowerStr s ≠ [] := by
  simpa [lowerStr] using h

theorem lowerStr_fixed_iff {v : Str} : lowerStr v = v ↔ ∀ c ∈ v, lowerChar c = c := by
  constructor
  · intro h c hc
    induction v with
    | nil => cases hc
    | cons a l ih =>
      rw [lowerStr, List.map_cons] at h
      rcases List.mem_cons.mp hc with rfl | hc'
      · exact (List.cons.inj h).1
      · exact ih (List.cons.inj h).2 hc'
  · intro h
    exact List.map_congr_left h |>.trans (List.map_id v)

theorem dropWhile_head_false {α : Type} {p : α → Bool} :
    ∀ {l : List α} {c : α} {cs : List α}, l.dropWhile p = c :: cs → p c = false := by
  intro l
  induction l with
  | nil => intro c cs h; cases h
  | cons a l ih =>
    intro c cs h
    rw [List.dropWhile_cons] at h
    by_cases hp : p a
    · rw [if_pos hp] at h; exact ih h
    · rw [if_neg hp] at h
      obtain ⟨rfl, -⟩ := List.cons.inj h
      simpa using hp

theorem splitWsF_nil {fuel : Nat} {s : Str} (h : s.dropWhile isWs = []) :
    splitWsF fuel s = [] := by
  cases fuel with
  | zero => rfl
  | succ n => simp [splitWsF, h]

theorem splitWsF_cons {fuel : Nat} {s : Str} {c : Nat} {cs : Str}
    (h : s.dropWhile isWs = c :: cs) :
    splitWsF (fuel + 1) s = (c :: cs.takeWhile (fun x => !isWs x)) ::
      splitWsF fuel (cs.dropWhile (fun x => !isWs x)) := by
  simp [splitWsF, h]

theorem splitWsF_adequate : ∀ (fuel : Nat) (s : Str), s.length ≤ fuel →
    splitWsF fuel s = splitWs s := by
  intro fuel
  induction fuel using Nat.strong_induction_on with
  | _ fuel ih =>
    intro s hs
    rcases hd : s.dropWhile isWs with - | ⟨c, cs⟩
    · rw [splitWs, splitWsF_nil hd, splitWsF_nil hd]
    · have hne : s ≠ [] := by
        intro h0
        subst h0
        rw [List.dropWhile_nil] at hd
        cases hd
      rcases fuel with - | k
      · exact absurd (List.length_eq_zero.mp (Nat.le_zero.mp hs)) hne
      rcases hsl : s.length with - | m
      · exact absurd (List.length_eq_zero.mp hsl) hne
      have hlen1 : (c :: cs).length ≤ s.length := by
        rw [← hd]
        exact (List.dropWhile_sublist _).length_le
      have hlen2 : (cs.dropWhile (fun x => !isWs x)).length ≤ cs.length :=
        (List.dropWhile_sublist _).length_le
      rw [hsl] at hlen1
      simp only [List.length_cons] at hlen1
      rw [hsl] at hs
      rw [splitWs, hsl, splitWsF_cons hd, splitWsF_cons hd]
      congr 1
      rw [ih k (Nat.lt_succ_self k) _ (by omega), ih m (by omega) _ (by omega)]

theorem splitWs_nil_case {s : Str} (h : s.dropWhile isWs = []) : splitWs s = [] := by
  rw [splitWs]
  exact splitWsF_nil h

theorem splitWs_cons_case {s : Str} {c : Nat} {cs : Str}
    (h : s.dropWhile isWs = c :: cs) :
    splitWs s = (c :: cs.takeWhile (fun x => !isWs x)) ::
      splitWs (cs.dropWhile (fun x => !isWs x)) := by
  have hne : s ≠ [] := by
    intro h0
    subst h0
    rw [List.dropWhile_nil] at h
    cases h
  rcases hsl : s.length with - | m
  · exact absurd (List.length_eq_zero.mp hsl) hne
  · have hlen1 : (c :: cs).length ≤ s.length := by
      rw [← h]
      exact (List.dropWhile_sublist _).length_le
    have hlen2 : (cs.dropWhile (fun x => !isWs x)).length ≤ cs.length :=
      (List.dropWhile_sublist _).length_le
    rw [hsl] at hlen1
    simp only [List.length_cons] at hlen1
    rw [splitWs, hsl, splitWsF_cons h]
    congr 1
    exact splitWsF_adequate m _ (by omega)

theorem splitWs_sound (s : Str) :
    ∀ t ∈ splitWs s, t ≠ [] ∧ ∀ c ∈ t, isWs c = false := by
  rcases h : s.dropWhile isWs with - | ⟨c, cs⟩
  · rw [splitWs_nil_case h]; intro t ht; cases ht
  · rw [splitWs_cons_case h]
    intro t ht
    rcases List.mem_cons.mp ht with rfl | ht'
    · refine ⟨by simp, ?_⟩
      intro x hx
      rcases List.mem_cons.mp hx with rfl | hx'
      · exact dropWhile_head_false h
      · simpa using List.mem_takeWhile_imp hx'
    · exact splitWs_sound (cs.dropWhile (fun x => !isWs x)) t ht'
termination_by s.length
decreasing_by
  have h1 : (s.dropWhile isWs).length ≤ s.length :=
    (List.dropWhile_sublist (p := isWs) (l := s)).length_le
  rw [h] at h1
  have h3 : (cs.dropWhile (fun x => !isWs x)).length ≤ cs.length :=
    (List.dropWhile_sublist (p := fun x => !isWs x) (l := cs)).length_le
  simp only [List.length_cons] at h1
  omega

theorem splitWs_singleton {w : Str} (hne : w ≠ [])
    (hws : ∀ c ∈ w, isWs c = false) : splitWs w = [w] := by
  rcases w with - | ⟨c, cs⟩
  · exact absurd rfl hne
  · have hc : isWs c = false := hws c (by simp)
    have hdrop : (c :: cs).dropWhile isWs = c :: cs := by
      rw [List.dropWhile_cons, if_neg (by simp [hc])]
    have htake : cs.takeWhile (fun x => !isWs x) = cs :=
      List.takeWhile_eq_self_iff.mpr
        (fun x hx => by simp [hws x (List.mem_cons_of_mem c hx)])
    have hdrop2 : cs.dropWhile (fun x => !isWs x) = [] :=
      List.dropWhile_eq_nil_iff.mpr
        (fun x hx => by simp [hws x (List.mem_cons_of_mem c hx)])
    rw [splitWs_cons_case hdrop, htake, hdrop2,
      splitWs_nil_case (by simp [List.dropWhile_nil])]

theorem strip_key_eq {t : Str} (h : t ≠ []) :
    strip_key t = some (stripOneTrailing t) := by
  induction t using List.reverseRecOn with
  | nil => exact absurd rfl h
  | append_singleton as a _ =>
    by_cases hc : a = 44 ∨ a = 33 ∨ a = 46 <;>
      simp [strip_key, stripOneTrailing, hc]

theorem mapM_eq_some_map {α β : Type} (f : α → Option β) (g : α → β) :
    ∀ l : List α, (∀ x ∈ l, f x = some (g x)) → l.mapM f = some (l.map g)
  | [], _ => rfl
  | a :: l, h => by
    have ha : f a = some (g a) := h a (by simp)
    have hl := mapM_eq_some_map f g l (fun x hx => h x (by simp [hx]))
    rw [List.mapM_cons, ha, hl]
    rfl

theorem valueWords_eq (v : Str) :
    valueWords v =
      some ((splitWs v).map (fun t => stripOneTrailing (lowerStr t))) := by
  apply mapM_eq_some_map
  intro t ht
  exact strip_key_eq (lowerStr_ne_nil (splitWs_sound v t ht).1)

theorem lower_strip_words_eq (doc : Doc) :
    lower_strip_words doc = some (specNormWords doc) := by
  have h : (doc.map Prod.snd).mapM valueWords =
      some ((doc.map Prod.snd).map
        (fun v => (splitWs v).map (fun t => stripOneTrailing (lowerStr t)))) :=
    mapM_eq_some_map _ _ _ (fun v _ => valueWords_eq v)
  rw [lower_strip_words, h, Option.map_some']
  congr 1

theorem mem_specNormWords {w : Str} {doc : Doc} :
    w ∈ specNormWords doc ↔
      ∃ p ∈ doc, ∃ t ∈ splitWs p.2, stripOneTrailing (lowerStr t) = w := by
  simp only [specNormWords, List.mem_toFinset, List.mem_flatMap, List.mem_map]
  constructor
  · rintro ⟨v, ⟨p, hp, rfl⟩, t, ht, rfl⟩
    exact ⟨p, hp, t, ht, rfl⟩
  · rintro ⟨p, hp, t, ht, rfl⟩
    exact ⟨p.2, ⟨p, hp, rfl⟩, t, ht, rfl⟩

theorem stripOneTrailing_sub {v : Str} : ∀ c ∈ stripOneTrailing v, c ∈ v := by
  intro c hc
  rw [stripOneTrailing] at hc
  split at hc
  · exact List.dropLast_subset v hc
  · exact hc

theorem specNormWords_fixed {w : Str} {doc : Doc} (hw : w ∈ specNormWords doc) :
    lowerStr w = w ∧ ∀ c ∈ w, isWs c = false := by
  obtain ⟨p, -, t, ht, rfl⟩ := mem_specNormWords.mp hw
  have htok := splitWs_sound p.2 t ht
  constructor
  · rw [lowerStr_fixed_iff]
    intro c hc
    have hc' : c ∈ lowerStr t := stripOneTrailing_sub c hc
    obtain ⟨c0, -, rfl⟩ := List.mem_map.mp hc'
    exact lowerChar_idem c0
  · intro c hc
    have hc' : c ∈ lowerStr t := stripOneTrailing_sub c hc
    obtain ⟨c0, hc0, rfl⟩ := List.mem_map.mp hc'
    rw [isWs_lowerChar]
    exact htok.2 c0 hc0

theorem mem_foldl_union (db : Database) (l : List Str) (acc : Finset DocId)
    (j : DocId) :
    (j ∈ l.foldl (fun a tok =>
        match db.inv_index (lowerStr tok) with
        | some s => a ∪ s
        | none => a) acc) ↔
      j ∈ acc ∨ ∃ t ∈ l, inPosting (db.inv_index (lowerStr t)) j := by
  induction l generalizing acc with
  | nil => simp
  | cons a l ih =>
    rw [List.foldl_cons, ih]
    rcases h : db.inv_index (lowerStr a) with - | s <;>
      · simp only [h, inPosting, List.mem_cons, Finset.mem_union]
        constructor
        · rintro (hj | ⟨t, ht, hp⟩)
          · first
            | (rcases hj with hj | hj
               · exact Or.inl hj
               · exact Or.inr ⟨a, Or.inl rfl, by rw [h]; exact hj⟩)
            | exact Or.inl hj
          · exact Or.inr ⟨t, Or.inr ht, hp⟩
        · rintro (hj | ⟨t, (rfl | ht), hp⟩)
          · first
            | exact Or.inl (Or.inl hj)
            | exact Or.inl hj
          · rw [h] at hp
            first
              | exact Or.inl (Or.inr hp)
              | exact absurd hp (by simp [inPosting])
          · exact Or.inr ⟨t, ht, hp⟩

theorem mem_matchSet {db : Database} {text : Str} {j : DocId} :
    j ∈ db.matchSet text ↔
      ∃ t ∈ splitWs text, inPosting (db.inv_index (lowerStr t)) j := by
  rw [Database.matchSet, mem_foldl_union]
  simp

theorem mem_match {db : Database} {text : Str} {j : DocId} :
    j ∈ db.match text ↔
      ∃ t ∈ splitWs text, inPosting (db.inv_index (lowerStr t)) j :=
  mem_matchSet

theorem match_single {db : Database} {w : Str} (hne : w ≠ [])
    (hws : ∀ c ∈ w, isWs c = false) (hlow : lowerStr w = w) (j : DocId) :
    j ∈ db.match w ↔ inPosting (db.inv_index w) j := by
  rw [mem_match, splitWs_singleton hne hws]
  simp [hlow]

theorem inPosting_removeFromIndex {idx : Str → Option (Finset DocId)}
    {ws : Finset Str} {i : DocId} {w : Str} {j : DocId} :
    inPosting (removeFromIndex idx ws i w) j ↔
      inPosting (idx w) j ∧ ¬(j = i ∧ w ∈ ws) := by
  unfold removeFromIndex
  by_cases hw : w ∈ ws
  · rw [if_pos hw]
    rcases h : idx w with - | s
    · simp [inPosting]
    · show inPosting
        (if i ∈ s then (if s.erase i = ∅ then none else some (s.erase i))
         else some s) j ↔ _
      by_cases hi : i ∈ s
      · rw [if_pos hi]
        by_cases he : s.erase i = ∅
        · rw [if_pos he]
          simp only [inPosting, hw, and_true]
          constructor
          · exact False.elim
          · rintro ⟨hj, hne⟩
            have hje : j ∈ s.erase i := Finset.mem_erase.mpr ⟨hne, hj⟩
            rw [he] at hje
            cases hje
        · rw [if_neg he]
          simp only [inPosting, Finset.mem_erase, hw, and_true]
          tauto
      · rw [if_neg hi]
        simp only [inPosting, hw, and_true]
        constructor
        · intro hj
          refine ⟨hj, ?_⟩
          rintro rfl
          exact hi hj
        · tauto
  · rw [if_neg hw]
    simp [hw]

theorem inPosting_addToIndex {idx : Str → Option (Finset DocId)}
    {ws : Finset Str} {i : DocId} {w : Str} {j : DocId} :
    inPosting (addToIndex idx ws i w) j ↔
      inPosting (idx w) j ∨ (j = i ∧ w ∈ ws) := by
  unfold addToIndex
  by_cases hw : w ∈ ws
  · rw [if_pos hw]
    rcases h : idx w with - | s <;>
      simp [inPosting, h, hw, Finset.mem_union]
  · rw [if_neg hw]
    simp [hw]

theorem reindex_not_mem {db : Database} {i : DocId} (h : i ∉ db.doc_ids) :
    db.reindex_if_doc_in_db i = some db := by
  simp only [Database.reindex_if_doc_in_db, if_neg h]

theorem reindex_mem {db : Database} {i : DocId} {dOld : Doc}
    (hi : i ∈ db.doc_ids) (hd : db.docs i = some dOld) :
    db.reindex_if_doc_in_db i =
      some { db with
        inv_index := removeFromIndex db.inv_index (specNormWords dOld) i } := by
  simp only [Database.reindex_if_doc_in_db, if_pos hi, hd, lower_strip_words_eq]

theorem index_eq_not_mem {db : Database} {doc : Doc} {i : DocId}
    (h : i ∉ db.doc_ids) :
    db.index doc i = some (afterIndex db doc i db.inv_index) := by
  simp only [Database.index, reindex_not_mem h, lower_strip_words_eq, afterIndex]

theorem index_eq_mem {db : Database} {doc : Doc} {i : DocId} {dOld : Doc}
    (hi : i ∈ db.doc_ids) (hd : db.docs i = some dOld) :
    db.index doc i =
      some (afterIndex db doc i
        (removeFromIndex db.inv_index (specNormWords dOld) i)) := by
  simp only [Database.index, reindex_mem hi hd, lower_strip_words_eq, afterIndex]

theorem index_none_iff {db : Database} {doc : Doc} {i : DocId} :
    db.index doc i = none ↔ i ∈ db.doc_ids ∧ db.docs i = none := by
  constructor
  · intro h
    by_cases hi : i ∈ db.doc_ids
    · rcases hd : db.docs i with - | dOld
      · exact ⟨hi, rfl⟩
      · rw [index_eq_mem hi hd] at h; cases h
    · rw [index_eq_not_mem hi] at h; cases h
  · rintro ⟨hi, hd⟩
    simp only [Database.index, Database.reindex_if_doc_in_db, if_pos hi, hd]

theorem index_cases {db : Database} {doc : Doc} {i : DocId} {db' : Database}
    (h : db.index doc i = some db') :
    (i ∉ db.doc_ids ∧ db' = afterIndex db doc i db.inv_index) ∨
    (∃ dOld, i ∈ db.doc_ids ∧ db.docs i = some dOld ∧
      db' = afterIndex db doc i
        (removeFromIndex db.inv_index (specNormWords dOld) i)) := by
  by_cases hi : i ∈ db.doc_ids
  · rcases hd : db.docs i with - | dOld
    · rw [index_none_iff.mpr ⟨hi, hd⟩] at h; cases h
    · right
      refine ⟨dOld, hi, rfl, ?_⟩
      rw [index_eq_mem hi hd] at h
      exact (Option.some.inj h).symm
  · left
    refine ⟨hi, ?_⟩
    rw [index_eq_not_mem hi] at h
    exact (Option.some.inj h).symm

theorem index_state {db : Database} {doc : Doc} {i : DocId} {db' : Database}
    (h : db.index doc i = some db') :
    db'.morph = db.morph ∧ db'.doc_ids = insert i db.doc_ids ∧
      db'.docs i = some doc ∧ ∀ j, j ≠ i → db'.docs j = db.docs j := by
  rcases index_cases h with ⟨-, rfl⟩ | ⟨dOld, -, -, rfl⟩ <;>
    · refine ⟨rfl, rfl, by simp [afterIndex], ?_⟩
      intro j hj
      simp [afterIndex, if_neg hj]

theorem index_posting_self {db : Database} {doc : Doc} {i : DocId}
    {db' : Database} (h : db.index doc i = some db') {w : Str}
    (hw : w ∈ expandSet db.morph (specNormWords doc)) :
    inPosting (db'.inv_index w) i := by
  rcases index_cases h with ⟨-, rfl⟩ | ⟨dOld, -, -, rfl⟩ <;>
    · show inPosting (addToIndex _ _ _ _) i
      rw [inPosting_addToIndex]
      exact Or.inr ⟨rfl, hw⟩

theorem index_posting_other {db : Database} {doc : Doc} {i : DocId}
    {db' : Database} (h : db.index doc i = some db') {j : DocId} (hj : j ≠ i)
    (w : Str) :
    inPosting (db'.inv_index w) j ↔ inPosting (db.inv_index w) j := by
  rcases index_cases h with ⟨-, rfl⟩ | ⟨dOld, -, -, rfl⟩
  · show inPosting (addToIndex _ _ _ _) j ↔ _
    rw [inPosting_addToIndex]
    simp [hj]
  · show inPosting (addToIndex _ _ _ _) j ↔ _
    rw [inPosting_addToIndex, inPosting_removeFromIndex]
    simp [hj]

theorem index_posting_mem {db : Database} {doc : Doc} {i : DocId}
    {dOld : Doc} {db' : Database} (hi : i ∈ db.doc_ids)
    (hd : db.docs i = some dOld) (h : db.index doc i = some db') (w : Str)
    (j : DocId) :
    inPosting (db'.inv_index w) j ↔
      ((inPosting (db.inv_index w) j ∧ ¬(j = i ∧ w ∈ specNormWords dOld)) ∨
        (j = i ∧ w ∈ expandSet db.morph (specNormWords doc))) := by
  rw [index_eq_mem hi hd] at h
  obtain rfl := (Option.some.inj h).symm
  show inPosting (addToIndex _ _ _ _) j ↔ _
  rw [inPosting_addToIndex, inPosting_removeFromIndex]

theorem index_posting_new {db : Database} {doc : Doc} {i : DocId}
    {db' : Database} (hi : i ∉ db.doc_ids) (h : db.index doc i = some db')
    (w : Str) (j : DocId) :
    inPosting (db'.inv_index w) j ↔
      (inPosting (db.inv_index w) j ∨
        (j = i ∧ w ∈ expandSet db.morph (specNormWords doc))) := by
  rw [index_eq_not_mem hi] at h
  obtain rfl := (Option.some.inj h).symm
  show inPosting (addToIndex _ _ _ _) j ↔ _
  rw [inPosting_addToIndex]

theorem mem_expandSet {m : Str → List Str} {lits : Finset Str} {w : Str} :
    w ∈ expandSet m lits ↔ ∃ u ∈ lits, w = u ∨ w ∈ m u := by
  simp [expandSet, Finset.mem_biUnion, Finset.mem_insert, List.mem_toFinset]

theorem subset_expandSet {m : Str → List Str} {lits : Finset Str} {w : Str}
    (hw : w ∈ lits) : w ∈ expandSet m lits :=
  mem_expandSet.mpr ⟨w, hw, Or.inl rfl⟩

theorem expandSet_idMorph {m : Str → List Str} (hm : IdMorph m)
    (lits : Finset Str) : expandSet m lits = lits := by
  ext w
  rw [mem_expandSet]
  constructor
  · rintro ⟨u, hu, rfl | hv⟩
    · exact hu
    · rw [hm u w hv]; exact hu
  · intro hw
    exact ⟨w, hw, Or.inl rfl⟩

theorem sync_empty (m : Str → List Str) : SyncIds (Database.empty m) := by
  intro i
  simp [Database.empty]

theorem sync_step {db : Database} {doc : Doc} {i : DocId} {db' : Database}
    (hs : SyncIds db) (h : db.index doc i = some db') : SyncIds db' := by
  obtain ⟨-, hdi, hdocsi, hdocs⟩ := index_state h
  intro j
  by_cases hj : j = i
  · subst hj
    simp [hdi, hdocsi]
  · rw [hdi, Finset.mem_insert, hdocs j hj]
    simp only [hj, false_or]
    exact hs j

theorem reachable_sync {db : Database} (h : Reachable db) : SyncIds db := by
  induction h with
  | init m => exact sync_empty m
  | step hdb heq ih => exact sync_step ih heq

theorem index_total {db : Database} (hs : SyncIds db) (doc : Doc) (i : DocId) :
    ∃ db', db.index doc i = some db' := by
  rcases hh : db.index doc i with - | db'
  · obtain ⟨hi, hd⟩ := index_none_iff.mp hh
    have hsome := (hs i).mp hi
    rw [hd] at hsome
    cases hsome
  · exact ⟨db', rfl⟩

theorem addToIndex_ne_empty {idx : Str → Option (Finset DocId)}
    {ws : Finset Str} {i : DocId} {w : Str} (hne : ∀ u, idx u ≠ some ∅) :
    addToIndex idx ws i w ≠ some ∅ := by
  unfold addToIndex
  by_cases hw : w ∈ ws
  · rw [if_pos hw]
    intro hcon
    have hi : i ∈ ((idx w).getD ∅ ∪ {i} : Finset DocId) := by simp
    rw [Option.some.inj hcon] at hi
    cases hi
  · rw [if_neg hw]
    exact hne w

theorem removeFromIndex_ne_empty {idx : Str → Option (Finset DocId)}
    {ws : Finset Str} {i : DocId} {w : Str} (hne : ∀ u, idx u ≠ some ∅) :
    removeFromIndex idx ws i w ≠ some ∅ := by
  unfold removeFromIndex
  by_cases hw : w ∈ ws
  · rw [if_pos hw]
    rcases h : idx w with - | s
    · simp
    · show (if i ∈ s then (if s.erase i = ∅ then none else some (s.erase i))
        else some s) ≠ some ∅
      by_cases hi : i ∈ s
      · rw [if_pos hi]
        by_cases he : s.erase i = ∅
        · rw [if_pos he]; simp
        · rw [if_neg he]
          intro hc
          exact he (Option.some.inj hc)
      · rw [if_neg hi]
        intro hc
        exact (hne w) (h.trans hc)
  · rw [if_neg hw]
    exact hne w

theorem noempty_step {db : Database} {doc : Doc} {i : DocId} {db' : Database}
    (hne : NoEmptyPostings db) (h : db.index doc i = some db') :
    NoEmptyPostings db' := by
  intro w
  rcases index_cases h with ⟨-, rfl⟩ | ⟨dOld, -, -, rfl⟩
  · exact addToIndex_ne_empty hne
  · exact addToIndex_ne_empty (fun u => removeFromIndex_ne_empty hne)

theorem reachable_noempty {db : Database} (h : Reachable db) :
    NoEmptyPostings db := by
  induction h with
  | init m =>
    intro w
    intro hc
    cases hc
  | step hdb heq ih => exact noempty_step ih heq

theorem fresh_step {db : Database} {doc : Doc} {i : DocId} {db' : Database}
    (hsync : SyncIds db) (hf : Freshness db) (hm : IdMorph db.morph)
    (h : db.index doc i = some db') : Freshness db' := by
  intro w j hj
  obtain ⟨hmorph, -, hdocsi, hdocs⟩ := index_state h
  by_cases hji : j = i
  · subst hji
    refine ⟨doc, hdocsi, ?_⟩
    rw [hmorph]
    rcases index_cases h with ⟨hi, heq⟩ | ⟨dOld, hi, hd, heq⟩
    · rw [index_posting_new hi h] at hj
      rcases hj with hj | ⟨-, hw⟩
      · obtain ⟨d, hdj, -⟩ := hf w j hj
        have hsome : (db.docs j).isSome = true := by rw [hdj]; rfl
        exact absurd ((hsync j).mpr hsome) hi
      · exact hw
    · rw [index_posting_mem hi hd h] at hj
      rcases hj with ⟨hj, hnot⟩ | ⟨-, hw⟩
      · obtain ⟨d, hdj, hwd⟩ := hf w j hj
        rw [hd] at hdj
        obtain rfl := Option.some.inj hdj
        rw [expandSet_idMorph hm] at hwd
        exact absurd ⟨rfl, hwd⟩ hnot
      · exact hw
  · rw [index_posting_other h hji] at hj
    obtain ⟨d, hdj, hwd⟩ := hf w j hj
    refine ⟨d, ?_, ?_⟩
    · rw [hdocs j hji]; exact hdj
    · rw [hmorph]; exact hwd

theorem reachable_fresh {db : Database} (h : Reachable db) :
    IdMorph db.morph → Freshness db := by
  induction h with
  | init m =>
    intro hm w j hj
    cases hj
  | step hdb heq ih =>
    intro hm
    have hm' : IdMorph _ := (index_state heq).1 ▸ hm
    exact fresh_step (reachable_sync hdb) (ih hm') hm' heq

theorem inPosting_iff {o : Option (Finset DocId)} {j : DocId} :
    inPosting o j ↔ ∃ s, o = some s ∧ j ∈ s := by
  rcases o with - | s
  · simp [inPosting]
  · simp [inPosting]

theorem removeFromIndex_eq_of_mem {idx : Str → Option (Finset DocId)}
    {ws : Finset Str} {i : DocId} {w : Str} (hw : w ∈ ws) :
    removeFromIndex idx ws i w =
      match idx w with
      | none => none
      | some s =>
        if i ∈ s then (if s.erase i = ∅ then none else some (s.erase i))
        else some s := by
  unfold removeFromIndex
  rw [if_pos hw]

theorem removeFromIndex_eq_of_not_mem {idx : Str → Option (Finset DocId)}
    {ws : Finset Str} {i : DocId} {w : Str} (hw : w ∉ ws) :
    removeFromIndex idx ws i w = idx w := by
  unfold removeFromIndex
  rw [if_neg hw]

/-- Claim C1 (corrected, amended form): the freshness invariant — every
(term, id) pair present in the inverted index is backed by the
currently stored document of that id, whose normalized and
morphologically expanded word set contains the term — holds at every
state reachable by index calls, provided the morphology provider
returns no variant besides the word itself.  (As stated, over an
arbitrary provider, the claim is false: see the counterexample.) -/
theorem C1_fresh_of_idMorph {db : Database} (h : Reachable db)
    (hm : IdMorph db.morph) : Freshness db :=
  reachable_fresh h hm

/-- Claim C1 counterexample: with a provider expanding proving to
prove, index a document containing "proving" under id 1, then re-index
id 1 with a document containing only "galaxy"; the stale pair
("prove", 1) survives although the stored document of id 1 no longer
yields that term, refuting the freshness invariant as stated. -/
theorem C1_counterexample :
    (Database.empty mProve).index [(ofStr "f", ofStr "proving")] (some 1) =
      some (runIndex (Database.empty mProve)
        [(ofStr "f", ofStr "proving")] (some 1)) ∧
    (runIndex (Database.empty mProve)
        [(ofStr "f", ofStr "proving")] (some 1)).index
        [(ofStr "f", ofStr "galaxy")] (some 1) =
      some (runIndex (runIndex (Database.empty mProve)
        [(ofStr "f", ofStr "proving")] (some 1))
        [(ofStr "f", ofStr "galaxy")] (some 1)) ∧
    ¬ Freshness (runIndex (runIndex (Database.empty mProve)
        [(ofStr "f", ofStr "proving")] (some 1))
        [(ofStr "f", ofStr "galaxy")] (some 1)) := by
  refine ⟨rfl, rfl, ?_⟩
  intro hf
  obtain ⟨d, hd, hw⟩ := hf (ofStr "prove") (some 1) (by decide)
  have hd' : some [(ofStr "f", ofStr "galaxy")] = some d := hd
  obtain rfl := Option.some.inj hd'
  exact absurd hw (by decide)

/-- Claim C1 witness: a concrete reachable state with the trivial
provider satisfies the freshness invariant, via the amended theorem. -/
theorem C1_witness :
    Freshness (runIndex (Database.empty mNone)
      [(ofStr "f", ofStr "hot")] (some 1)) :=
  C1_fresh_of_idMorph
    (@Reachable.step (Database.empty mNone) [(ofStr "f", ofStr "hot")] (some 1)
      (runIndex (Database.empty mNone) [(ofStr "f", ofStr "hot")] (some 1))
      (Reachable.init mNone) rfl)
    (fun _ v hv => absurd hv (List.not_mem_nil v))

/-- Claim C2 (corrected, amended form): replacement semantics.  If id
`i` is present with stored document `dOld` and `index dNew i` succeeds,
then (1) every nonempty normalized word of the old document absent from
the new one is matched for `i` exactly when it survives as a
morphological variant of some new word, and (2) every nonempty
normalized word of the new document is matched for `i`.  (As stated,
over possibly empty normalized words, part (2) is false: see the
counterexample — a token consisting of a single punctuation character
normalizes to the empty string, which no query can match.) -/
theorem C2_replacement {db db' : Database} {i : DocId} {dOld dNew : Doc}
    {litsO litsN : Finset Str}
    (hi : i ∈ db.doc_ids) (hdoc : db.docs i = some dOld)
    (hlO : lower_strip_words dOld = some litsO)
    (hlN : lower_strip_words dNew = some litsN)
    (h : db.index dNew i = some db') :
    (∀ w ∈ litsO, w ∉ litsN → w ≠ [] →
      (i ∈ db'.match w ↔ ∃ u ∈ litsN, w ∈ db.morph u)) ∧
    (∀ w ∈ litsN, w ≠ [] → i ∈ db'.match w) := by
  rw [lower_strip_words_eq] at hlO hlN
  obtain rfl := Option.some.inj hlO
  obtain rfl := Option.some.inj hlN
  constructor
  · intro w hwO hwN hne
    have hfix := specNormWords_fixed hwO
    rw [match_single hne hfix.2 hfix.1]
    rw [index_posting_mem hi hdoc h]
    constructor
    · rintro (⟨-, hnot⟩ | ⟨-, hw⟩)
      · exact absurd ⟨rfl, hwO⟩ hnot
      · obtain ⟨u, hu, rfl | hv⟩ := mem_expandSet.mp hw
        · exact absurd hu hwN
        · exact ⟨u, hu, hv⟩
    · rintro ⟨u, hu, hv⟩
      exact Or.inr ⟨rfl, mem_expandSet.mpr ⟨u, hu, Or.inr hv⟩⟩
  · intro w hwN hne
    have hfix := specNormWords_fixed hwN
    rw [match_single hne hfix.2 hfix.1]
    exact index_posting_self h (subset_expandSet hwN)

/-- Claim C2 counterexample: id 1 holds a document with word "x";
re-indexing id 1 with a document whose only field value is a lone
comma produces the normalized word set containing only the empty
string, and the claimed "every word present in the new document is
found via match for id 1" fails for that word. -/
theorem C2_counterexample :
    (Database.empty mNone).index [(ofStr "a", ofStr "x")] (some 1) =
      some (runIndex (Database.empty mNone) [(ofStr "a", ofStr "x")] (some 1)) ∧
    some 1 ∈ (runIndex (Database.empty mNone)
      [(ofStr "a", ofStr "x")] (some 1)).doc_ids ∧
    (runIndex (Database.empty mNone) [(ofStr "a", ofStr "x")] (some 1)).index
        [(ofStr "b", ofStr ",")] (some 1) =
      some (runIndex (runIndex (Database.empty mNone)
        [(ofStr "a", ofStr "x")] (some 1)) [(ofStr "b", ofStr ",")] (some 1)) ∧
    lower_strip_words [(ofStr "b", ofStr ",")] = some {([] : Str)} ∧
    some 1 ∉ (runIndex (runIndex (Database.empty mNone)
      [(ofStr "a", ofStr "x")] (some 1))
      [(ofStr "b", ofStr ",")] (some 1)).match [] := by
  exact ⟨rfl, by decide, rfl, by decide, by decide⟩

/-- Claim C2 witness: a concrete replacement of the document of id 1
("hot") by another ("cold") under the trivial provider, instantiating
the amended replacement theorem. -/
theorem C2_witness :
    some 1 ∈ (runIndex (Database.empty mNone)
      [(ofStr "f", ofStr "hot")] (some 1)).doc_ids ∧
    (runIndex (Database.empty mNone)
      [(ofStr "f", ofStr "hot")] (some 1)).docs (some 1) =
        some [(ofStr "f", ofStr "hot")] ∧
    lower_strip_words [(ofStr "f", ofStr "hot")] = some {ofStr "hot"} ∧
    lower_strip_words [(ofStr "f", ofStr "cold")] = some {ofStr "cold"} ∧
    (runIndex (Database.empty mNone) [(ofStr "f", ofStr "hot")] (some 1)).index
        [(ofStr "f", ofStr "cold")] (some 1) =
      some (runIndex (runIndex (Database.empty mNone)
        [(ofStr "f", ofStr "hot")] (some 1)) [(ofStr "f", ofStr "cold")] (some 1)) ∧
    ((∀ w ∈ ({ofStr "hot"} : Finset Str), w ∉ ({ofStr "cold"} : Finset Str) →
        w ≠ [] →
        (some 1 ∈ (runIndex (runIndex (Database.empty mNone)
            [(ofStr "f", ofStr "hot")] (some 1))
            [(ofStr "f", ofStr "cold")] (some 1)).match w ↔
          ∃ u ∈ ({ofStr "cold"} : Finset Str),
            w ∈ (runIndex (Database.empty mNone)
              [(ofStr "f", ofStr "hot")] (some 1)).morph u)) ∧
      (∀ w ∈ ({ofStr "cold"} : Finset Str), w ≠ [] →
        some 1 ∈ (runIndex (runIndex (Database.empty mNone)
          [(ofStr "f", ofStr "hot")] (some 1))
          [(ofStr "f", ofStr "cold")] (some 1)).match w)) :=
  ⟨by decide, by decide, by decide, by decide, rfl,
    @C2_replacement (runIndex (Database.empty mNone)
        [(ofStr "f", ofStr "hot")] (some 1))
      (runIndex (runIndex (Database.empty mNone)
        [(ofStr "f", ofStr "hot")] (some 1)) [(ofStr "f", ofStr "cold")] (some 1))
      (some 1) [(ofStr "f", ofStr "hot")] [(ofStr "f", ofStr "cold")]
      {ofStr "hot"} {ofStr "cold"}
      (by decide) (by decide) (by decide) (by decide) rfl⟩

/-- Claim C3 (confirmed): match postcondition.  An identifier is in the
result of match exactly when some whitespace-delimited token of the
query, lower-cased — with no punctuation stripping and no morphological
expansion — is a key of the inverted index whose posting list contains
the identifier; in particular the result is empty when no token
matches, and as a finite set it consists of distinct identifiers. -/
theorem C3_match_postcondition (db : Database) (text : Str) (j : DocId) :
    j ∈ db.match text ↔
      ∃ tok ∈ splitWs text, ∃ s,
        db.inv_index (lowerStr tok) = some s ∧ j ∈ s := by
  rw [mem_match]
  constructor
  · rintro ⟨t, ht, hp⟩
    exact ⟨t, ht, inPosting_iff.mp hp⟩
  · rintro ⟨t, ht, s, hs, hj⟩
    exact ⟨t, ht, inPosting_iff.mpr ⟨s, hs, hj⟩⟩

/-- Claim C4 (confirmed): the removal step of re-indexing.  When id `i`
is already stored with old document `dOld`, the removal pass removes
`i` exactly from the posting lists of the old document's literal
normalized words: on those keys, `i` is gone afterwards, a posting list
that still holds other ids keeps exactly them, one that becomes empty
is deleted, one not holding `i` is unchanged; every key outside the old
literal word set is untouched. -/
theorem C4_removal_step {db db' : Database} {i : DocId} {dOld : Doc}
    {litsO : Finset Str}
    (hi : i ∈ db.doc_ids) (hd : db.docs i = some dOld)
    (hl : lower_strip_words dOld = some litsO)
    (h : db.reindex_if_doc_in_db i = some db') :
    (∀ w ∈ litsO, ∀ s, db'.inv_index w = some s → i ∉ s) ∧
    (∀ w ∈ litsO, ∀ s, db.inv_index w = some s → i ∈ s → s.erase i ≠ ∅ →
      db'.inv_index w = some (s.erase i)) ∧
    (∀ w ∈ litsO, ∀ s, db.inv_index w = some s → i ∈ s → s.erase i = ∅ →
      db'.inv_index w = none) ∧
    (∀ w ∈ litsO, ∀ s, db.inv_index w = some s → i ∉ s →
      db'.inv_index w = some s) ∧
    (∀ w, w ∉ litsO → db'.inv_index w = db.inv_index w) := by
  rw [lower_strip_words_eq] at hl
  obtain rfl := Option.some.inj hl
  rw [reindex_mem hi hd] at h
  obtain rfl := (Option.some.inj h).symm
  refine ⟨?_, ?_, ?_, ?_, ?_⟩
  · intro w hw s hs hin
    replace hs :
        removeFromIndex db.inv_index (specNormWords dOld) i w = some s := hs
    have hp : inPosting
        (removeFromIndex db.inv_index (specNormWords dOld) i w) i := by
      rw [hs]
      exact hin
    rw [inPosting_removeFromIndex] at hp
    exact hp.2 ⟨rfl, hw⟩
  · intro w hw s hsold hin hne
    show removeFromIndex db.inv_index (specNormWords dOld) i w =
      some (s.erase i)
    rw [removeFromIndex_eq_of_mem hw, hsold]
    show (if i ∈ s then (if s.erase i = ∅ then none else some (s.erase i))
      else some s) = some (s.erase i)
    rw [if_pos hin, if_neg hne]
  · intro w hw s hsold hin he
    show removeFromIndex db.inv_index (specNormWords dOld) i w = none
    rw [removeFromIndex_eq_of_mem hw, hsold]
    show (if i ∈ s then (if s.erase i = ∅ then none else some (s.erase i))
      else some s) = none
    rw [if_pos hin, if_pos he]
  · intro w hw s hsold hin
    show removeFromIndex db.inv_index (specNormWords dOld) i w = some s
    rw [removeFromIndex_eq_of_mem hw, hsold]
    show (if i ∈ s then (if s.erase i = ∅ then none else some (s.erase i))
      else some s) = some s
    rw [if_neg hin]
  · intro w hw
    show removeFromIndex db.inv_index (specNormWords dOld) i w =
      db.inv_index w
    exact removeFromIndex_eq_of_not_mem hw

/-- Claim C4 witness: the removal step applied to a concrete state in
which id 1 is stored with the single word "hot". -/
theorem C4_witness :
    some 1 ∈ (runIndex (Database.empty mNone)
      [(ofStr "f", ofStr "hot")] (some 1)).doc_ids ∧
    (runIndex (Database.empty mNone)
      [(ofStr "f", ofStr "hot")] (some 1)).docs (some 1) =
        some [(ofStr "f", ofStr "hot")] ∧
    lower_strip_words [(ofStr "f", ofStr "hot")] = some {ofStr "hot"} ∧
    ((∀ w ∈ ({ofStr "hot"} : Finset Str), ∀ s,
        (((runIndex (Database.empty mNone) [(ofStr "f", ofStr "hot")]
          (some 1)).reindex_if_doc_in_db (some 1)).getD
          (runIndex (Database.empty mNone) [(ofStr "f", ofStr "hot")]
            (some 1))).inv_index w = some s → some 1 ∉ s) ∧
      (∀ w ∈ ({ofStr "hot"} : Finset Str), ∀ s,
        (runIndex (Database.empty mNone) [(ofStr "f", ofStr "hot")]
          (some 1)).inv_index w = some s → some 1 ∈ s → s.erase (some 1) ≠ ∅ →
        (((runIndex (Database.empty mNone) [(ofStr "f", ofStr "hot")]
          (some 1)).reindex_if_doc_in_db (some 1)).getD
          (runIndex (Database.empty mNone) [(ofStr "f", ofStr "hot")]
            (some 1))).inv_index w = some (s.erase (some 1))) ∧
      (∀ w ∈ ({ofStr "hot"} : Finset Str), ∀ s,
        (runIndex (Database.empty mNone) [(ofStr "f", ofStr "hot")]
          (some 1)).inv_index w = some s → some 1 ∈ s → s.erase (some 1) = ∅ →
        (((runIndex (Database.empty mNone) [(ofStr "f", ofStr "hot")]
          (some 1)).reindex_if_doc_in_db (some 1)).getD
          (runIndex (Database.empty mNone) [(ofStr "f", ofStr "hot")]
            (some 1))).inv_index w = none) ∧
      (∀ w ∈ ({ofStr "hot"} : Finset Str), ∀ s,
        (runIndex (Database.empty mNone) [(ofStr "f", ofStr "hot")]
          (some 1)).inv_index w = some s → some 1 ∉ s →
        (((runIndex (Database.empty mNone) [(ofStr "f", ofStr "hot")]
          (some 1)).reindex_if_doc_in_db (some 1)).getD
          (runIndex (Database.empty mNone) [(ofStr "f", ofStr "hot")]
            (some 1))).inv_index w = some s) ∧
      (∀ w, w ∉ ({ofStr "hot"} : Finset Str) →
        (((runIndex (Database.empty mNone) [(ofStr "f", ofStr "hot")]
          (some 1)).reindex_if_doc_in_db (some 1)).getD
          (runIndex (Database.empty mNone) [(ofStr "f", ofStr "hot")]
            (some 1))).inv_index w =
        (runIndex (Database.empty mNone) [(ofStr "f", ofStr "hot")]
          (some 1)).inv_index w)) :=
  ⟨by decide, by decide, by decide,
    @C4_removal_step
      (runIndex (Database.empty mNone) [(ofStr "f", ofStr "hot")] (some 1))
      (((runIndex (Database.empty mNone) [(ofStr "f", ofStr "hot")]
        (some 1)).reindex_if_doc_in_db (some 1)).getD
        (runIndex (Database.empty mNone) [(ofStr "f", ofStr "hot")] (some 1)))
      (some 1) [(ofStr "f", ofStr "hot")] {ofStr "hot"}
      (by decide) (by decide) (by decide) rfl⟩

/-- Claim C5 (confirmed): normalization.  The literal normalized word
set computed during indexing is exactly the set of whitespace-delimited
tokens of the field values, lower-cased, with one trailing character
stripped when it is a comma, exclamation mark or period; field names
contribute nothing (documents with identical field values in possibly
different fields normalize identically). -/
theorem C5_normalization :
    (∀ doc : Doc, lower_strip_words doc = some (specNormWords doc)) ∧
    (∀ doc doc' : Doc, doc.map Prod.snd = doc'.map Prod.snd →
      specNormWords doc = specNormWords doc') := by
  refine ⟨lower_strip_words_eq, ?_⟩
  intro doc doc' hvals
  unfold specNormWords
  rw [hvals]

/-- Claim C5 witness: normalization of a concrete document, and
invariance under renaming its field. -/
theorem C5_witness :
    lower_strip_words [(ofStr "Sheldon", ofStr "Hot, dense STATE!")] =
      some (specNormWords [(ofStr "Sheldon", ofStr "Hot, dense STATE!")]) ∧
    specNormWords [(ofStr "Sheldon", ofStr "Hot, dense STATE!")] =
      specNormWords [(ofStr "Lenoard", ofStr "Hot, dense STATE!")] :=
  ⟨C5_normalization.1 [(ofStr "Sheldon", ofStr "Hot, dense STATE!")],
    C5_normalization.2 [(ofStr "Sheldon", ofStr "Hot, dense STATE!")]
      [(ofStr "Lenoard", ofStr "Hot, dense STATE!")] rfl⟩

/-- Claim C6 (corrected, amended form): idempotent self-match.  For any
document, identifier, and nonempty literal normalized word of that
document, immediately after indexing the document under the identifier,
match on that word includes the identifier.  (As stated, without the
nonemptiness qualifier, the claim is false: see the counterexample.) -/
theorem C6_self_match {db db' : Database} {doc : Doc} {i : DocId}
    {lits : Finset Str}
    (h : db.index doc i = some db') (hl : lower_strip_words doc = some lits)
    {w : Str} (hw : w ∈ lits) (hne : w ≠ []) :
    i ∈ db'.match w := by
  rw [lower_strip_words_eq] at hl
  obtain rfl := Option.some.inj hl
  have hfix := specNormWords_fixed hw
  rw [match_single hne hfix.2 hfix.1]
  exact index_posting_self h (subset_expandSet hw)

/-- Claim C6 counterexample: a document whose only field value is a
lone comma has the empty string as its single literal normalized word;
after indexing it under id 1, match on that word returns nothing, so
the claim as stated fails. -/
theorem C6_counterexample :
    (Database.empty mNone).index [(ofStr "a", ofStr ",")] (some 1) =
      some (runIndex (Database.empty mNone) [(ofStr "a", ofStr ",")] (some 1)) ∧
    lower_strip_words [(ofStr "a", ofStr ",")] = some {([] : Str)} ∧
    some 1 ∉ (runIndex (Database.empty mNone)
      [(ofStr "a", ofStr ",")] (some 1)).match [] :=
  ⟨rfl, by decide, by decide⟩

/-- Claim C6 witness: the amended self-match theorem at a concrete
document with the word "hot" indexed under id 1. -/
theorem C6_witness :
    lower_strip_words [(ofStr "f", ofStr "hot")] = some {ofStr "hot"} ∧
    some 1 ∈ (runIndex (Database.empty mNone)
      [(ofStr "f", ofStr "hot")] (some 1)).match (ofStr "hot") :=
  ⟨by decide,
    @C6_self_match (Database.empty mNone)
      (runIndex (Database.empty mNone) [(ofStr "f", ofStr "hot")] (some 1))
      [(ofStr "f", ofStr "hot")] (some 1) {ofStr "hot"}
      rfl (by decide) (ofStr "hot") (by decide) (by decide)⟩

/-- Claim C7 (confirmed): totality.  From any reachable engine state,
indexing any well-formed document under any identifier succeeds (the
embedding returns some state, never the failure value), and the
trailing-punctuation strip is never applied to an empty token: every
whitespace-delimited token, once lower-cased, strips successfully.
The match operation of the embedding is total by construction. -/
theorem C7_totality {db : Database} (h : Reachable db) :
    (∀ (doc : Doc) (i : DocId), ∃ db', db.index doc i = some db') ∧
    (∀ v : Str, ∀ tok ∈ splitWs v, strip_key (lowerStr tok) ≠ none) := by
  refine ⟨fun doc i => index_total (reachable_sync h) doc i, ?_⟩
  intro v tok htok
  rw [strip_key_eq (lowerStr_ne_nil (splitWs_sound v tok htok).1)]
  intro hc
  cases hc

/-- Claim C7 witness: totality instantiated at a concrete reachable
state holding one document. -/
theorem C7_witness :
    (∀ (doc : Doc) (i : DocId), ∃ db',
      (runIndex (Database.empty mNone)
        [(ofStr "f", ofStr "hot")] (some 1)).index doc i = some db') ∧
    (∀ v : Str, ∀ tok ∈ splitWs v, strip_key (lowerStr tok) ≠ none) :=
  C7_totality
    (@Reachable.step (Database.empty mNone) [(ofStr "f", ofStr "hot")] (some 1)
      (runIndex (Database.empty mNone) [(ofStr "f", ofStr "hot")] (some 1))
      (Reachable.init mNone) rfl)

/-- Claim C8 (confirmed): no empty posting lists.  Every reachable
state keeps no inverted-index key with an empty posting list, and every
successful index call preserves the property. -/
theorem C8_no_empty (db : Database) (h : Reachable db) :
    NoEmptyPostings db ∧
    (∀ (doc : Doc) (i : DocId) (db' : Database),
      db.index doc i = some db' → NoEmptyPostings db') :=
  ⟨reachable_noempty h,
    fun _ _ _ heq => reachable_noempty (Reachable.step h heq)⟩

/-- Claim C8 witness: the invariant at a concrete reachable state, and
its preservation across a further index call. -/
theorem C8_witness :
    NoEmptyPostings (runIndex (Database.empty mNone)
      [(ofStr "f", ofStr "hot")] (some 1)) ∧
    (∀ (doc : Doc) (i : DocId) (db' : Database),
      (runIndex (Database.empty mNone)
        [(ofStr "f", ofStr "hot")] (some 1)).index doc i = some db' →
      NoEmptyPostings db') :=
  C8_no_empty (runIndex (Database.empty mNone)
      [(ofStr "f", ofStr "hot")] (some 1))
    (@Reachable.step (Database.empty mNone) [(ofStr "f", ofStr "hot")] (some 1)
      (runIndex (Database.empty mNone) [(ofStr "f", ofStr "hot")] (some 1))
      (Reachable.init mNone) rfl)

/-- Claim C9 (confirmed): calling the index wrapper without an
identifier stores the document under the single identifier None (no
fresh identifier is generated: the id set only gains None), replacing
any previous id-less document and leaving every other identifier's
stored document unchanged, and None is returned by match for the new
document's nonempty normalized words — exactly as for an ordinary
identifier. -/
theorem C9_none_identifier {db db' : Database} {doc : Doc}
    {litsN : Finset Str}
    (h : topIndex db doc = some db')
    (hl : lower_strip_words doc = some litsN) :
    db'.doc_ids = insert none db.doc_ids ∧
    db'.docs none = some doc ∧
    (∀ j : DocId, j ≠ none → db'.docs j = db.docs j) ∧
    (∀ w ∈ litsN, w ≠ [] → none ∈ db'.match w) := by
  have h' : db.index doc none = some db' := h
  obtain ⟨-, hdi, hdocsi, hdocs⟩ := index_state h'
  rw [lower_strip_words_eq] at hl
  obtain rfl := Option.some.inj hl
  refine ⟨hdi, hdocsi, hdocs, ?_⟩
  intro w hw hne
  have hfix := specNormWords_fixed hw
  rw [match_single hne hfix.2 hfix.1]
  exact index_posting_self h' (subset_expandSet hw)

/-- Claim C9 witness: an id-less index call on a fresh engine stores
the document under None and makes None matchable for its word. -/
theorem C9_witness :
    topIndex (Database.empty mNone) [(ofStr "f", ofStr "hot")] =
      some (runIndex (Database.empty mNone) [(ofStr "f", ofStr "hot")] none) ∧
    lower_strip_words [(ofStr "f", ofStr "hot")] = some {ofStr "hot"} ∧
    ((runIndex (Database.empty mNone)
        [(ofStr "f", ofStr "hot")] none).doc_ids =
      insert none (Database.empty mNone).doc_ids ∧
    (runIndex (Database.empty mNone) [(ofStr "f", ofStr "hot")] none).docs
        none = some [(ofStr "f", ofStr "hot")] ∧
    (∀ j : DocId, j ≠ none →
      (runIndex (Database.empty mNone)
        [(ofStr "f", ofStr "hot")] none).docs j =
      (Database.empty mNone).docs j) ∧
    (∀ w ∈ ({ofStr "hot"} : Finset Str), w ≠ [] →
      none ∈ (runIndex (Database.empty mNone)
        [(ofStr "f", ofStr "hot")] none).match w)) :=
  ⟨rfl, by decide,
    @C9_none_identifier (Database.empty mNone)
      (runIndex (Database.empty mNone) [(ofStr "f", ofStr "hot")] none)
      [(ofStr "f", ofStr "hot")] {ofStr "hot"} rfl (by decide)⟩

/-- Claim C10 (confirmed): frame property.  A successful index call for
identifier `i` leaves the posting-list membership of every other
identifier unchanged on every key, and therefore the match results of
every other identifier are identical before and after the call. -/
theorem C10_frame {db db' : Database} {doc : Doc} {i : DocId}
    (h : db.index doc i = some db') {j : DocId} (hj : j ≠ i) :
    (∀ w, inPosting (db'.inv_index w) j ↔ inPosting (db.inv_index w) j) ∧
    (∀ text : Str, j ∈ db'.match text ↔ j ∈ db.match text) := by
  refine ⟨fun w => index_posting_other h hj w, fun text => ?_⟩
  rw [mem_match, mem_match]
  constructor
  · rintro ⟨t, ht, hp⟩
    exact ⟨t, ht, (index_posting_other h hj _).mp hp⟩
  · rintro ⟨t, ht, hp⟩
    exact ⟨t, ht, (index_posting_other h hj _).mpr hp⟩

/-- Claim C10 witness: indexing a new document under id 1 leaves id 2's
postings and match results untouched in a concrete two-document
state. -/
theorem C10_witness :
    (∀ w, inPosting ((runIndex (runIndex (Database.empty mNone)
        [(ofStr "g", ofStr "dense")] (some 2))
        [(ofStr "f", ofStr "hot")] (some 1)).inv_index w) (some 2) ↔
      inPosting ((runIndex (Database.empty mNone)
        [(ofStr "g", ofStr "dense")] (some 2)).inv_index w) (some 2)) ∧
    (∀ text : Str,
      some 2 ∈ (runIndex (runIndex (Database.empty mNone)
        [(ofStr "g", ofStr "dense")] (some 2))
        [(ofStr "f", ofStr "hot")] (some 1)).match text ↔
      some 2 ∈ (runIndex (Database.empty mNone)
        [(ofStr "g", ofStr "dense")] (some 2)).match text) :=
  @C10_frame (runIndex (Database.empty mNone)
      [(ofStr "g", ofStr "dense")] (some 2))
    (runIndex (runIndex (Database.empty mNone)
      [(ofStr "g", ofStr "dense")] (some 2)) [(ofStr "f", ofStr "hot")] (some 1))
    [(ofStr "f", ofStr "hot")] (some 1) rfl (some 2) (by decide)
